import Mathlib

/-!
Shallow embedding of the source-classification and fetch-URL synthesis
pipeline of cargo-bitbake (src/git.rs, src/license.rs, src/main.rs).

Rust strings are modelled as `List Char`; a Rust byte length is recovered
through `Char.utf8Size` (byte-wise lexicographic order on UTF-8 encodings
agrees with the scalar-value order on `List Char`).  A Rust panic or other
abort is modelled by `Option`: `none` is the aborted run.
-/

/-- Model of `GitPrefix` (src/git.rs lines 29-39): the prefix tag chosen for
the Yocto URL dialect; `Default` for it is `Git`. -/
inductive GitPrefix where
  | Git
  | GitSubmodule
deriving DecidableEq

/-- Model of the `Display` impl of `GitPrefix` (src/git.rs lines 41-52). -/
def GitPrefix.render : GitPrefix → List Char
  | GitPrefix.Git => "git".data
  | GitPrefix.GitSubmodule => "gitsm".data

/-- Helper for the regex `.*@.*:.*` (src/git.rs line 23): whether a `':'`
occurs in `s` before any `'\n'` (the regex's `.` does not match a newline). -/
def colonBeforeNl : List Char → Bool
  | [] => false
  | c :: cs => if c = ':' then true else if c = '\n' then false else colonBeforeNl cs

/-- Model of `SSH_STYLE_REMOTE.is_match url` (src/git.rs lines 23-27, 58):
the unanchored regex `.*@.*:.*` matches iff some `'@'` is followed, further
right and with no intervening newline, by a `':'`. -/
def sshStyleRemoteMatches : List Char → Bool
  | [] => false
  | c :: cs =>
    if c = '@' then colonBeforeNl cs || sshStyleRemoteMatches cs
    else sshStyleRemoteMatches cs

/-- Model of the `fixed_url` binding of `git_to_yocto_git_url`
(src/git.rs lines 58-62): on a regex match, prepend `ssh://` to the url with
every `':'` replaced by `'/'` (Rust `str::replace` replaces all occurrences). -/
def fixedUrl (url : List Char) : List Char :=
  if sshStyleRemoteMatches url = true then
    "ssh://".data ++ url.map (fun c => if c = ':' then '/' else c)
  else url

/-- Model of `fixed_url.split_at(fixed_url.find(':').unwrap())`
(src/git.rs line 69): `none` when the string holds no `':'` (the `unwrap`
panics there), else the part before the first `':'` and the rest starting
at that `':'`. -/
def splitAtFirstColon : List Char → Option (List Char × List Char)
  | [] => none
  | c :: cs =>
    if c = ':' then some ([], c :: cs)
    else (splitAtFirstColon cs).map (fun p => (c :: p.1, p.2))

/-- Model of `git_to_yocto_git_url` (src/git.rs lines 55-84).  `none` models
the panic of the `unwrap` on `find(':')`. -/
def git_to_yocto_git_url (url : List Char) (name : Option (List Char)) (p : GitPrefix) :
    Option (List Char) :=
  let fixed := fixedUrl url
  match splitAtFirstColon fixed with
  | none => none
  | some (proto, rest) =>
    let yocto :=
      if proto = "ssh".data ∨ proto = "http".data ∨ proto = "https".data then
        p.render ++ rest ++ ";protocol=".data ++ proto
      else fixed
    let yocto2 := yocto ++ ";nobranch=1".data
    match name with
    | some n => some (yocto2 ++ ";name=".data ++ n ++ ";destsuffix=".data ++ n)
    | none => some yocto2

/-- Whether the scheme-translation arm of the match in `git_to_yocto_git_url`
(src/git.rs lines 69-74) applies to `url`: the component before the first
`':'` of the (possibly rewritten) url is `ssh`, `http` or `https`. -/
def schemeTranslated (url : List Char) : Bool :=
  match splitAtFirstColon (fixedUrl url) with
  | some (proto, _) => decide (proto = "ssh".data ∨ proto = "http".data ∨ proto = "https".data)
  | none => false

/-- Model of `ProjectRepo` (src/git.rs lines 86-92). -/
structure ProjectRepo where
  uri : List Char
  branch : List Char
  rev : List Char
  tag : Bool
deriving DecidableEq

/-- The `Default` value of `ProjectRepo` substituted when the upstream probe
fails (src/git.rs line 86, src/main.rs lines 355-358): empty strings and
`tag = false`. -/
def defaultProjectRepo : ProjectRepo :=
  ⟨[], [], [], false⟩

/-- Model of `CLOSED_LICENSE` (src/license.rs line 16). -/
def CLOSED_LICENSE : List Char :=
  "CLOSED".data

/-- The filesystem oracle for the license-file search: `pathExists` models
`Path::exists`, and `file_md5` models the `file_md5` function of
src/license.rs lines 19-25 (`none` is a read error, `some h` the lowercase
hex MD5 of the file's content). -/
structure FS where
  pathExists : List Char → Bool
  file_md5 : List Char → Option (List Char)

/-- Model of `Path::join` followed by `display` for the paths built in
src/license.rs: an absolute right side replaces the left, otherwise the two
are joined with a single `'/'`. -/
def pathJoin (a b : List Char) : List Char :=
  if b.head? = some '/' then b
  else if a = [] then b
  else if a.getLast? = some '/' then a ++ b
  else a ++ '/' :: b

/-- One license-evidence line `file://{path};md5={sum} \` with trailing
backslash-newline (src/license.rs lines 52-56 and the like). -/
def licLine (p m : List Char) : List Char :=
  "file://".data ++ p ++ ";md5=".data ++ m ++ " \\\n".data

/-- Model of `license::file` (src/license.rs lines 29-76): the license-file
search with the `CLOSED` special case, the verbatim name, the
`LICENSE-<name>` special name, the bare `LICENSE` (single-license only) and
the `generateme` fallback. -/
def license_file (fs : FS) (crate_root rel_dir license_name : List Char)
    (single_license : Bool) : List Char :=
  if license_name = CLOSED_LICENSE then [] else
  let special_name := "LICENSE-".data ++ license_name
  let lic_abs_path := pathJoin crate_root license_name
  let spec_abs_path := pathJoin crate_root special_name
  let simple_abs_path := pathJoin crate_root "LICENSE".data
  if fs.pathExists lic_abs_path = true then
    licLine (pathJoin rel_dir license_name) ((fs.file_md5 lic_abs_path).getD "generateme".data)
  else if fs.pathExists spec_abs_path = true then
    licLine (pathJoin rel_dir special_name) ((fs.file_md5 spec_abs_path).getD "generateme".data)
  else if fs.pathExists simple_abs_path = true ∧ single_license = true then
    licLine (pathJoin rel_dir "LICENSE".data) ((fs.file_md5 simple_abs_path).getD "generateme".data)
  else
    "file://".data ++ license_name ++ ";md5=generateme \\\n".data

/-- Model of `CRATES_IO_URL` (src/main.rs line 41). -/
def CRATES_IO_URL : List Char :=
  "crates.io".data

/-- Model of `cargo::core::source::GitReference` as consumed by
src/main.rs lines 250-273. -/
inductive GitReference where
  | Tag (s : List Char)
  | Rev (s : List Char)
  | Branch (s : List Char)
  | DefaultBranch
deriving DecidableEq

/-- The origin kind of a source id, as the predicates `is_registry`,
`is_path`, `is_git` of src/main.rs lines 215-285 distinguish it. -/
inductive SourceKind where
  | registry
  | path
  | git (reference : GitReference)
  | other
deriving DecidableEq

/-- Model of the part of `cargo::core::SourceId` this code reads: `url()`
(for a registry source this identifies the index), the kind, and
`precise()`. -/
structure SourceId where
  url : List Char
  kind : SourceKind
  precise : Option (List Char)
deriving DecidableEq

/-- One entry of the resolved dependency set: `pkg.name()`, `pkg.version()`
(its rendered text) and `pkg.source_id()` (src/main.rs lines 210-212). -/
structure ResolvedPackage where
  name : List Char
  version : List Char
  source_id : SourceId
deriving DecidableEq

/-- Rust `str::len`: the UTF-8 byte length of the string. -/
def byteLen (s : List Char) : Nat :=
  (s.map Char.utf8Size).sum

/-- Rust byte slice `&s[..n]`: the characters making up the first `n` bytes;
`none` when `n` is not a character boundary (or past the end), where Rust
panics. -/
def takeBytes : List Char → Nat → Option (List Char)
  | _, 0 => some []
  | [], _ + 1 => none
  | c :: cs, n + 1 =>
    if Char.utf8Size c ≤ n + 1 then (takeBytes cs (n + 1 - Char.utf8Size c)).map (fun t => c :: t)
    else none

/-- The revision value written into `SRCREV_<name>` for a git source
(src/main.rs lines 241-274): the `precise` revision when reproducible mode
requests it, else the git reference, where a `Rev` that is not 40 bytes long
falls back to `precise` and `none` models the `panic!` when that is absent. -/
def selectRev (reproducible : Bool) (ref : GitReference) (precise_rev : Option (List Char)) :
    Option (List Char) :=
  let precise := if reproducible then precise_rev else none
  match precise with
  | some p => some p
  | none =>
    match ref with
    | GitReference.Tag s => some s
    | GitReference.Rev s => if byteLen s = 40 then some s else precise_rev
    | GitReference.Branch s => some (if s = "master".data then "${AUTOREV}".data else s)
    | GitReference.DefaultBranch => some ("${AUTOREV}".data)

/-- What the closure of src/main.rs lines 210-287 produces for one package:
the optional fetch-URI line (`filter_map`), and the auxiliary lines pushed
onto `src_uri_extras`. -/
structure ClassifyOut where
  uri : Option (List Char)
  extras : List (List Char)
deriving DecidableEq

/-- The uri line and the three auxiliary lines emitted for a git-origin
package (src/main.rs lines 239, 276-283): `SRCREV_FORMAT`, the
`SRCREV_<name>` assignment carrying `rev`, and the `EXTRA_OECARGO_PATHS`
hint. -/
def gitOut (name u rev : List Char) : ClassifyOut :=
  ⟨some ("    ".data ++ u ++ " \\\n".data),
   ["SRCREV_FORMAT .= \"_".data ++ name ++ "\"".data,
    "SRCREV_".data ++ name ++ " = \"".data ++ rev ++ "\"".data,
    "EXTRA_OECARGO_PATHS += \"${WORKDIR}/".data ++ name ++ "\"".data]⟩

/-- Model of the per-package body of the closure of src/main.rs lines
210-287: skip the root package, emit the registry archive line from the
constant index, skip path sources, translate and pin git sources, and pass
any other url through.  `none` models a panic. -/
def classify (reproducible : Bool) (rootName : List Char) (pkg : ResolvedPackage) :
    Option ClassifyOut :=
  if pkg.name = rootName then some ⟨none, []⟩
  else
    match pkg.source_id.kind with
    | SourceKind.registry =>
      some ⟨some ("    crate://".data ++ CRATES_IO_URL ++ "/".data ++ pkg.name
              ++ "/".data ++ pkg.version ++ " \\\n".data), []⟩
    | SourceKind.path => some ⟨none, []⟩
    | SourceKind.git ref =>
      match git_to_yocto_git_url pkg.source_id.url (some pkg.name) GitPrefix.Git with
      | none => none
      | some u =>
        match selectRev reproducible ref pkg.source_id.precise with
        | none => none
        | some rev => some (gitOut pkg.name u rev)
    | SourceKind.other => some ⟨some ("    ".data ++ pkg.source_id.url ++ " \\\n".data), []⟩

/-- The `filter_map` collect of src/main.rs lines 207-288: the unsorted list
of fetch-URI lines, `none` when some package made the run panic. -/
def collectUris (reproducible : Bool) (rootName : List Char) :
    List ResolvedPackage → Option (List (List Char))
  | [] => some []
  | p :: ps =>
    match classify reproducible rootName p, collectUris reproducible rootName ps with
    | some c, some rest =>
      some (match c.uri with
            | some u => u :: rest
            | none => rest)
    | _, _ => none

/-- The fetch-URI list as written: collected and then sorted ascending
(`src_uris.sort()`, src/main.rs lines 290-291). -/
def srcUris (reproducible : Bool) (rootName : List Char) (pkgs : List ResolvedPackage) :
    Option (List (List Char)) :=
  (collectUris reproducible rootName pkgs).map (List.insertionSort (· ≤ ·))

/-- Model of the `git_srcpv` computation (src/main.rs lines 362-374): the
version-pin directive, emitted only when the upstream HEAD is not a tag and
the revision is longer than 10 bytes; its value carries the first 10 bytes
of the revision.  `some []` is the empty string (no directive); `none`
models the panic of slicing `&rev[..10]` off a character boundary. -/
def gitSrcpv (legacy_overrides : Bool) (tag : Bool) (rev : List Char) : Option (List Char) :=
  if tag = false ∧ 10 < byteLen rev then
    let pv_append_key := if legacy_overrides then "PV_append".data else "PV:append".data
    (takeBytes rev 10).map (fun p => pv_append_key ++ " = \".AUTOINC+".data ++ p ++ "\"".data)
  else some []

/-! Helper lemmas (shared; none of these is a claim's theorem). -/

theorem colonBeforeNl_iff (s : List Char) :
    colonBeforeNl s = true ↔ ∃ mid post, s = mid ++ ':' :: post ∧ '\n' ∉ mid := by
  induction s with
  | nil =>
    constructor
    · intro h
      exact absurd h (by simp [colonBeforeNl])
    · rintro ⟨mid, post, heq, -⟩
      exact absurd heq (by cases mid <;> simp)
  | cons c cs ih =>
    by_cases hc : c = ':'
    · subst hc
      constructor
      · intro _
        exact ⟨[], cs, rfl, by simp⟩
      · intro _
        simp [colonBeforeNl]
    · by_cases hn : c = '\n'
      · subst hn
        constructor
        · intro h
          rw [show colonBeforeNl ('\n' :: cs) = false by simp [colonBeforeNl, hc]] at h
          exact absurd h (by simp)
        · rintro ⟨mid, post, heq, hnot⟩
          cases mid with
          | nil =>
            simp only [List.nil_append, List.cons.injEq] at heq
            exact absurd heq.1 hc
          | cons m ms =>
            simp only [List.cons_append, List.cons.injEq] at heq
            exact absurd (List.mem_cons_self m ms) (heq.1 ▸ hnot)
      · rw [show colonBeforeNl (c :: cs) = colonBeforeNl cs by simp [colonBeforeNl, hc, hn]]
        rw [ih]
        constructor
        · rintro ⟨mid, post, heq, hnot⟩
          refine ⟨c :: mid, post, by rw [heq, List.cons_append], fun hmem => ?_⟩
          rcases List.mem_cons.1 hmem with h1 | h1
          · exact hn h1.symm
          · exact hnot h1
        · rintro ⟨mid, post, heq, hnot⟩
          cases mid with
          | nil =>
            simp only [List.nil_append, List.cons.injEq] at heq
            exact absurd heq.1 hc
          | cons m ms =>
            simp only [List.cons_append, List.cons.injEq] at heq
            refine ⟨ms, post, heq.2, fun hmem => hnot ?_⟩
            exact List.mem_cons_of_mem m hmem

theorem sshStyleRemoteMatches_iff (s : List Char) :
    sshStyleRemoteMatches s = true ↔
      ∃ pre mid post, s = pre ++ '@' :: (mid ++ ':' :: post) ∧ '\n' ∉ mid := by
  induction s with
  | nil =>
    constructor
    · intro h
      exact absurd h (by simp [sshStyleRemoteMatches])
    · rintro ⟨pre, mid, post, heq, -⟩
      exact absurd heq (by cases pre <;> simp)
  | cons c cs ih =>
    by_cases hc : c = '@'
    · subst hc
      rw [show sshStyleRemoteMatches ('@' :: cs) = (colonBeforeNl cs || sshStyleRemoteMatches cs)
        by simp [sshStyleRemoteMatches]]
      rw [Bool.or_eq_true]
      constructor
      · rintro (h | h)
        · obtain ⟨mid, post, heq, hnot⟩ := (colonBeforeNl_iff cs).1 h
          exact ⟨[], mid, post, by rw [heq, List.nil_append], hnot⟩
        · obtain ⟨pre, mid, post, heq, hnot⟩ := ih.1 h
          exact ⟨'@' :: pre, mid, post, by rw [heq, List.cons_append], hnot⟩
      · rintro ⟨pre, mid, post, heq, hnot⟩
        cases pre with
        | nil =>
          left
          simp only [List.nil_append, List.cons.injEq] at heq
          exact (colonBeforeNl_iff cs).2 ⟨mid, post, heq.2, hnot⟩
        | cons p ps =>
          right
          simp only [List.cons_append, List.cons.injEq] at heq
          exact ih.2 ⟨ps, mid, post, heq.2, hnot⟩
    · rw [show sshStyleRemoteMatches (c :: cs) = sshStyleRemoteMatches cs
        by simp [sshStyleRemoteMatches, hc]]
      rw [ih]
      constructor
      · rintro ⟨pre, mid, post, heq, hnot⟩
        exact ⟨c :: pre, mid, post, by rw [heq, List.cons_append], hnot⟩
      · rintro ⟨pre, mid, post, heq, hnot⟩
        cases pre with
        | nil =>
          simp only [List.nil_append, List.cons.injEq] at heq
          exact absurd heq.1 hc
        | cons p ps =>
          simp only [List.cons_append, List.cons.injEq] at heq
          exact ⟨ps, mid, post, heq.2, hnot⟩

theorem colonBeforeNl_colon_mem (s : List Char) (h : colonBeforeNl s = true) : ':' ∈ s := by
  obtain ⟨mid, post, heq, -⟩ := (colonBeforeNl_iff s).1 h
  rw [heq]
  simp

theorem sshStyleRemoteMatches_colon_mem (s : List Char) (h : sshStyleRemoteMatches s = true) :
    ':' ∈ s := by
  obtain ⟨pre, mid, post, heq, -⟩ := (sshStyleRemoteMatches_iff s).1 h
  rw [heq]
  simp

theorem splitAtFirstColon_isSome_iff (s : List Char) :
    (splitAtFirstColon s).isSome = true ↔ ':' ∈ s := by
  induction s with
  | nil => simp [splitAtFirstColon]
  | cons c cs ih =>
    by_cases hc : c = ':'
    · subst hc
      simp [splitAtFirstColon]
    · simp only [splitAtFirstColon, if_neg hc, List.mem_cons]
      cases hsp : splitAtFirstColon cs with
      | none =>
        rw [hsp] at ih
        simp only [Option.isSome_none] at ih ⊢
        constructor
        · intro h
          exact absurd h (by simp)
        · rintro (h | h)
          · exact absurd h.symm hc
          · exact absurd (ih.2 h) (by simp)
      | some pr =>
        rw [hsp] at ih
        simp only [Option.map_some', Option.isSome_some, true_iff] at ih ⊢
        exact Or.inr ih

theorem byteLen_of_ascii (s : List Char) (h : ∀ c ∈ s, Char.utf8Size c = 1) :
    byteLen s = s.length := by
  induction s with
  | nil => rfl
  | cons c cs ih =>
    have hc : Char.utf8Size c = 1 := h c (List.mem_cons_self c cs)
    have hcs : byteLen cs = cs.length := ih (fun d hd => h d (List.mem_cons_of_mem c hd))
    simp only [byteLen, List.map_cons, List.sum_cons, List.length_cons] at *
    omega

theorem takeBytes_of_ascii (s : List Char) (h : ∀ c ∈ s, Char.utf8Size c = 1) :
    ∀ n, n ≤ s.length → takeBytes s n = some (s.take n) := by
  induction s with
  | nil =>
    intro n hn
    have : n = 0 := Nat.le_zero.1 (by simpa using hn)
    subst this
    rfl
  | cons c cs ih =>
    intro n hn
    cases n with
    | zero => rfl
    | succ m =>
      have hc : Char.utf8Size c = 1 := h c (List.mem_cons_self c cs)
      have hrec := ih (fun d hd => h d (List.mem_cons_of_mem c hd)) m
        (by simpa using Nat.succ_le_succ_iff.1 hn)
      simp only [takeBytes, hc, Nat.add_sub_cancel, List.take_succ_cons]
      rw [if_pos (by omega), hrec]
      rfl

theorem classify_root (repro : Bool) (root : List Char) (pkg : ResolvedPackage)
    (h : pkg.name = root) : classify repro root pkg = some ⟨none, []⟩ := by
  simp [classify, h]

theorem collectUris_filter_root (repro : Bool) (root : List Char) (pkgs : List ResolvedPackage) :
    collectUris repro root (pkgs.filter (fun p => decide (¬ p.name = root))) =
      collectUris repro root pkgs := by
  induction pkgs with
  | nil => rfl
  | cons p ps ih =>
    by_cases h : p.name = root
    · rw [List.filter_cons_of_neg (by simp [h]), ih]
      have hcl := classify_root repro root p h
      cases hrest : collectUris repro root ps with
      | none => simp [collectUris, hcl, hrest]
      | some rest => simp [collectUris, hcl, hrest]
    · rw [List.filter_cons_of_pos (by simp [h])]
      simp only [collectUris, ih]

theorem git_to_yocto_git_url_translated (url : List Char) (name : Option (List Char))
    (gp : GitPrefix) (proto rest : List Char)
    (hsp : splitAtFirstColon (fixedUrl url) = some (proto, rest))
    (hproto : proto = "ssh".data ∨ proto = "http".data ∨ proto = "https".data) :
    git_to_yocto_git_url url name gp =
      some (gp.render ++ (rest ++ ";protocol=".data ++ proto ++ ";nobranch=1".data ++
        (match name with
         | some n => ";name=".data ++ n ++ ";destsuffix=".data ++ n
         | none => []))) := by
  cases name <;> simp [git_to_yocto_git_url, hsp, if_pos hproto, List.append_assoc]

/-! The claims. -/

/-- C8: for every crate_root, rel_dir and single_license flag, license-evidence
resolution with license_component exactly the case-sensitive sentinel "CLOSED"
returns the empty string, regardless of filesystem state. -/
theorem closed_license_empty (fs : FS) (crate_root rel_dir : List Char)
    (single_license : Bool) :
    license_file fs crate_root rel_dir "CLOSED".data single_license = [] := by
  simp [license_file, CLOSED_LICENSE]

/-- C9: in a multi-component license expression (single_license = false), a
component whose text is literally "LICENSE" still resolves to the bare file
crate_root/LICENSE when that file exists, via the verbatim-filename rule:
`single_license = false` only disables the third search rule, not the first. -/
theorem verbatim_license_rule (fs : FS) (crate_root rel_dir : List Char)
    (h : fs.pathExists (pathJoin crate_root "LICENSE".data) = true) :
    license_file fs crate_root rel_dir "LICENSE".data false =
      licLine (pathJoin rel_dir "LICENSE".data)
        ((fs.file_md5 (pathJoin crate_root "LICENSE".data)).getD "generateme".data) := by
  simp only [license_file, CLOSED_LICENSE]
  rw [if_neg (by decide), if_pos h]

/-- C9 witness: a filesystem where every path exists and no file is readable
resolves the "LICENSE" component of a multi-component expression to the bare
LICENSE file with the placeholder checksum. -/
theorem verbatim_license_rule_witness :
    license_file ⟨fun _ => true, fun _ => none⟩ "/cr".data "rd".data "LICENSE".data false =
      "file://rd/LICENSE;md5=generateme \\\n".data := by
  have h := verbatim_license_rule ⟨fun _ => true, fun _ => none⟩ "/cr".data "rd".data rfl
  rw [h]
  decide

/-- C10: when the upstream probe fails and the default ProjectRepo (empty
strings, tag = false) is substituted, the version-pin computation yields the
empty string — no version-pin directive — because the empty revision is not
longer than 10 bytes. -/
theorem default_repo_no_version_pin (legacy_overrides : Bool) :
    gitSrcpv legacy_overrides defaultProjectRepo.tag defaultProjectRepo.rev = some [] := by
  cases legacy_overrides <;> decide

/-- C1 (amended): for every registry-origin dependency whose name differs from
the root package's, the classifier emits the fetch-URI line
`    crate://crates.io/<pkg-name>/<pkg-version> \` with backslash-newline,
using the fixed constant CRATES_IO_URL whatever the origin's index is, and no
auxiliary directives. -/
theorem registry_uri_line (repro : Bool) (root name ver idx : List Char)
    (prec : Option (List Char)) (h : ¬ name = root) :
    classify repro root ⟨name, ver, ⟨idx, SourceKind.registry, prec⟩⟩ =
      some ⟨some ("    crate://".data ++ CRATES_IO_URL ++ "/".data ++ name
              ++ "/".data ++ ver ++ " \\\n".data), []⟩ := by
  simp [classify, h]

/-- C1 witness: one registry package foo@1.2.3 yields exactly the line
`    crate://crates.io/foo/1.2.3 \` and no extras. -/
theorem registry_uri_line_witness :
    classify false "root".data
        ⟨"foo".data, "1.2.3".data, ⟨"crates.io".data, SourceKind.registry, none⟩⟩ =
      some ⟨some "    crate://crates.io/foo/1.2.3 \\\n".data, []⟩ := by
  rw [registry_uri_line false "root".data "foo".data "1.2.3".data "crates.io".data none
    (by decide)]
  decide

/-- C1 counterexample: a registry package foo@1.2.3 whose origin index is
"pkgindex" still gets the crates.io line, not the claimed
`    crate://pkgindex/foo/1.2.3 \` line built from the origin's index name. -/
theorem registry_uri_line_counterexample :
    classify false "root".data
        ⟨"foo".data, "1.2.3".data, ⟨"pkgindex".data, SourceKind.registry, none⟩⟩ =
      some ⟨some "    crate://crates.io/foo/1.2.3 \\\n".data, []⟩ ∧
    ¬ ("    crate://crates.io/foo/1.2.3 \\\n".data =
        "    crate://pkgindex/foo/1.2.3 \\\n".data) := by
  exact ⟨by decide, by decide⟩

/-- C3 (amended): git_to_yocto_git_url is pure and returns a result exactly
when the input url contains a `':'`; on a url with no `':'` it panics (the
unwrap of `find(':')`), so it is not total over all strings. -/
theorem yocto_url_totality (url : List Char) (name : Option (List Char)) (p : GitPrefix) :
    (git_to_yocto_git_url url name p).isSome = true ↔ ':' ∈ url := by
  have hfix : (':' ∈ fixedUrl url) ↔ ':' ∈ url := by
    unfold fixedUrl
    by_cases h : sshStyleRemoteMatches url = true
    · rw [if_pos h]
      constructor
      · intro _
        exact sshStyleRemoteMatches_colon_mem url h
      · intro _
        exact List.mem_append_left _ (by decide)
    · rw [if_neg h]
  have hiff : (':' ∈ fixedUrl url) ↔ (splitAtFirstColon (fixedUrl url)).isSome = true :=
    (splitAtFirstColon_isSome_iff (fixedUrl url)).symm
  rw [← hfix, hiff]
  unfold git_to_yocto_git_url
  cases hsp : splitAtFirstColon (fixedUrl url) with
  | none => simp [hsp]
  | some pr => cases name <;> simp [hsp]

/-- C3 witness: on a url carrying a scheme, translation succeeds. -/
theorem yocto_url_totality_witness :
    (git_to_yocto_git_url "https://example.com/r.git".data none GitPrefix.Git).isSome = true :=
  (yocto_url_totality "https://example.com/r.git".data none GitPrefix.Git).mpr (by decide)

/-- C3 counterexample: on the url "foo" (no colon), the function panics
(modelled `none`), refuting that it returns a string for every input. -/
theorem yocto_url_totality_counterexample :
    git_to_yocto_git_url "foo".data none GitPrefix.Git = none := by
  decide

/-- C4 (amended): every url in which some `'@'` is followed, with no
intervening newline, by a later `':'` — whether or not it carries a scheme —
is rewritten before scheme translation to `ssh://` followed by the url with
every `':'` (not only the first) replaced by `'/'`; any other url passes this
stage unchanged. -/
theorem ssh_style_rewrite (url : List Char) :
    ((∃ pre mid post, url = pre ++ '@' :: (mid ++ ':' :: post) ∧ '\n' ∉ mid) →
      fixedUrl url = "ssh://".data ++ url.map (fun c => if c = ':' then '/' else c)) ∧
    ((¬ ∃ pre mid post, url = pre ++ '@' :: (mid ++ ':' :: post) ∧ '\n' ∉ mid) →
      fixedUrl url = url) := by
  constructor
  · intro h
    unfold fixedUrl
    rw [if_pos ((sshStyleRemoteMatches_iff url).2 h)]
  · intro h
    unfold fixedUrl
    rw [if_neg (fun hm => h ((sshStyleRemoteMatches_iff url).1 hm))]

/-- C4 witness: `git@github.com:org/repo.git` is rewritten so that its path
becomes `github.com/org/repo.git` under the `ssh://` scheme. -/
theorem ssh_style_rewrite_witness :
    fixedUrl "git@github.com:org/repo.git".data = "ssh://git@github.com/org/repo.git".data := by
  have h := (ssh_style_rewrite "git@github.com:org/repo.git".data).1
    ⟨"git".data, "github.com".data, "org/repo.git".data, by decide, by decide⟩
  rw [h]
  decide

/-- C4 counterexample: with several colons the code replaces every `':'`, not
only the first one after the host (`git@host:a:b` does not become
`ssh://git@host/a:b`); and a url carrying a scheme is still rewritten when it
contains an `'@'` before a `':'` (`https://u@h:8080/x` is not left
unchanged). -/
theorem ssh_style_rewrite_counterexample :
    ¬ (fixedUrl "git@host:a:b".data = "ssh://git@host/a:b".data) ∧
    ¬ (fixedUrl "https://u@h:8080/x".data = "https://u@h:8080/x".data) := by
  exact ⟨by decide, by decide⟩

/-- C7 (amended): whenever the scheme component of the (possibly rewritten)
url is ssh, http or https — exactly the calls in which the prefix tag is
prepended — the Plain translation begins with "git" and the Submodule
translation begins with "gitsm". -/
theorem submodule_prefix_translation (url : List Char) (name : Option (List Char))
    (h : schemeTranslated url = true) :
    (∃ s, git_to_yocto_git_url url name GitPrefix.Git = some s ∧
      s.take 3 = "git".data) ∧
    (∃ t, git_to_yocto_git_url url name GitPrefix.GitSubmodule = some t ∧
      t.take 5 = "gitsm".data) := by
  unfold schemeTranslated at h
  cases hsp : splitAtFirstColon (fixedUrl url) with
  | none =>
    rw [hsp] at h
    exact absurd h (by simp)
  | some pr =>
    obtain ⟨proto, rest⟩ := pr
    rw [hsp] at h
    have hproto : proto = "ssh".data ∨ proto = "http".data ∨ proto = "https".data :=
      of_decide_eq_true h
    refine ⟨⟨_, git_to_yocto_git_url_translated url name GitPrefix.Git proto rest hsp hproto, ?_⟩,
      ⟨_, git_to_yocto_git_url_translated url name GitPrefix.GitSubmodule proto rest hsp hproto, ?_⟩⟩
    · exact List.take_left "git".data _
    · exact List.take_left "gitsm".data _

/-- C7 witness: the https example url translates with both prefixes, one
beginning "git", the other "gitsm". -/
theorem submodule_prefix_translation_witness :
    (∃ s, git_to_yocto_git_url "https://example.com/r.git".data none GitPrefix.Git = some s ∧
      s.take 3 = "git".data) ∧
    (∃ t, git_to_yocto_git_url "https://example.com/r.git".data none GitPrefix.GitSubmodule =
      some t ∧ t.take 5 = "gitsm".data) :=
  submodule_prefix_translation "https://example.com/r.git".data none (by decide)

/-- C7 counterexample: for the url `git:x` (scheme not translated) the Plain
result `git:x;nobranch=1` begins with "git", yet the Submodule result is the
same string and does not begin with "gitsm", refuting the unconditional
claim. -/
theorem submodule_prefix_translation_counterexample :
    git_to_yocto_git_url "git:x".data none GitPrefix.Git = some "git:x;nobranch=1".data ∧
    ("git:x;nobranch=1".data).take 3 = "git".data ∧
    git_to_yocto_git_url "git:x".data none GitPrefix.GitSubmodule =
      some "git:x;nobranch=1".data ∧
    ¬ (("git:x;nobranch=1".data).take 5 = "gitsm".data) := by
  exact ⟨by decide, by decide, by decide, by decide⟩

/-- C5: for every resolved dependency set, the fetch-URI list (when the run
does not panic) is sorted ascending lexicographically, and packages named
like the root contribute nothing: filtering them out of the input leaves the
output unchanged. -/
theorem src_uris_sorted_no_root (repro : Bool) (root : List Char)
    (pkgs : List ResolvedPackage) :
    (∀ uris, srcUris repro root pkgs = some uris → List.Sorted (· ≤ ·) uris) ∧
    srcUris repro root (pkgs.filter (fun p => decide (¬ p.name = root))) =
      srcUris repro root pkgs := by
  constructor
  · intro uris h
    unfold srcUris at h
    cases hc : collectUris repro root pkgs with
    | none =>
      rw [hc] at h
      exact absurd h (by simp)
    | some base =>
      rw [hc] at h
      simp only [Option.map_some', Option.some.injEq] at h
      rw [← h]
      exact List.sorted_insertionSort _ base
  · unfold srcUris
    rw [collectUris_filter_root]

/-- C5 witness: a three-package set (the root itself plus two registry
packages supplied out of order) yields a sorted two-line list, and dropping
the root-named entry from the input does not change the output. -/
theorem src_uris_sorted_no_root_witness :
    (srcUris false "root".data
        [⟨"root".data, "0.1.0".data, ⟨"p".data, SourceKind.path, none⟩⟩,
         ⟨"b".data, "2.0.0".data, ⟨"reg".data, SourceKind.registry, none⟩⟩,
         ⟨"a".data, "1.0.0".data, ⟨"reg".data, SourceKind.registry, none⟩⟩] =
      some ["    crate://crates.io/a/1.0.0 \\\n".data,
            "    crate://crates.io/b/2.0.0 \\\n".data]) ∧
    List.Sorted (· ≤ ·)
      ["    crate://crates.io/a/1.0.0 \\\n".data, "    crate://crates.io/b/2.0.0 \\\n".data] ∧
    srcUris false "root".data
        ([⟨"root".data, "0.1.0".data, ⟨"p".data, SourceKind.path, none⟩⟩,
          ⟨"b".data, "2.0.0".data, ⟨"reg".data, SourceKind.registry, none⟩⟩,
          ⟨"a".data, "1.0.0".data, ⟨"reg".data, SourceKind.registry, none⟩⟩].filter
            (fun p => decide (¬ p.name = "root".data))) =
      srcUris false "root".data
        [⟨"root".data, "0.1.0".data, ⟨"p".data, SourceKind.path, none⟩⟩,
         ⟨"b".data, "2.0.0".data, ⟨"reg".data, SourceKind.registry, none⟩⟩,
         ⟨"a".data, "1.0.0".data, ⟨"reg".data, SourceKind.registry, none⟩⟩] := by
  have h := src_uris_sorted_no_root false "root".data
    [⟨"root".data, "0.1.0".data, ⟨"p".data, SourceKind.path, none⟩⟩,
     ⟨"b".data, "2.0.0".data, ⟨"reg".data, SourceKind.registry, none⟩⟩,
     ⟨"a".data, "1.0.0".data, ⟨"reg".data, SourceKind.registry, none⟩⟩]
  refine ⟨by decide, h.1 _ (by decide), h.2⟩

/-- C6: for an all-ASCII probed revision, the version-pin directive is the
empty string iff the upstream HEAD is a recognized tag or the revision is at
most 10 characters long; when it is emitted, its cache-busting suffix is
exactly the first 10 characters of the revision. -/
theorem version_pin_directive (legacy tag : Bool) (rev : List Char)
    (hascii : ∀ c ∈ rev, Char.utf8Size c = 1) :
    (gitSrcpv legacy tag rev = some [] ↔ (tag = true ∨ rev.length ≤ 10)) ∧
    (tag = false → 10 < rev.length →
      gitSrcpv legacy tag rev =
        some ((if legacy then "PV_append".data else "PV:append".data)
          ++ " = \".AUTOINC+".data ++ rev.take 10 ++ "\"".data)) := by
  have hb : byteLen rev = rev.length := byteLen_of_ascii rev hascii
  have hmain : tag = false → 10 < rev.length →
      gitSrcpv legacy tag rev =
        some ((if legacy then "PV_append".data else "PV:append".data)
          ++ " = \".AUTOINC+".data ++ rev.take 10 ++ "\"".data) := by
    intro ht hlen
    subst ht
    unfold gitSrcpv
    rw [if_pos ⟨rfl, by rw [hb]; exact hlen⟩]
    rw [takeBytes_of_ascii rev hascii 10 (by omega)]
    rfl
  refine ⟨⟨?_, ?_⟩, hmain⟩
  · intro h
    by_contra hcon
    push_neg at hcon
    obtain ⟨ht, hlen⟩ := hcon
    have ht' : tag = false := by
      cases tag
      · rfl
      · exact absurd rfl ht
    have hlen' : 10 < rev.length := by omega
    rw [hmain ht' hlen'] at h
    have h2 := Option.some.inj h
    simp only [List.append_eq_nil] at h2
    exact absurd h2.2 (by decide)
  · intro h
    have hng : ¬ (tag = false ∧ 10 < byteLen rev) := by
      rintro ⟨h1, h2⟩
      rcases h with ht | hlen
      · rw [ht] at h1
        exact absurd h1 (by decide)
      · rw [hb] at h2
        omega
    unfold gitSrcpv
    rw [if_neg hng]

/-- C6 witness: a 12-hex-character untagged revision yields the version-pin
line with exactly its first 10 characters as the suffix. -/
theorem version_pin_directive_witness :
    gitSrcpv false false "0123456789ab".data =
      some "PV:append = \".AUTOINC+0123456789\"".data := by
  have h := (version_pin_directive false false "0123456789ab".data (by decide)).2 rfl (by decide)
  rw [h]
  decide

/-- C2 (amended): for a git-origin dependency (name differing from the root,
translation succeeding), the emitted revision-override value is selected in
priority order: (1) reproducible mode with a precise revision present uses it
verbatim; (2) else Tag(name) gives name; Rev(commit) gives commit when it is
exactly 40 bytes long (no hex validation), else falls back to the precise
revision and panics when that is absent; Branch("master") and DefaultBranch
give the auto-resolve marker, Branch(other) gives the branch name. -/
theorem git_srcrev_selection (repro : Bool) (root name ver url u : List Char)
    (ref : GitReference) (prec : Option (List Char))
    (hname : ¬ name = root)
    (hurl : git_to_yocto_git_url url (some name) GitPrefix.Git = some u) :
    (∀ p, repro = true → prec = some p →
      classify repro root ⟨name, ver, ⟨url, SourceKind.git ref, prec⟩⟩ =
        some (gitOut name u p)) ∧
    ((repro = false ∨ prec = none) →
      (∀ s, ref = GitReference.Tag s →
        classify repro root ⟨name, ver, ⟨url, SourceKind.git ref, prec⟩⟩ =
          some (gitOut name u s)) ∧
      (∀ s, ref = GitReference.Rev s → byteLen s = 40 →
        classify repro root ⟨name, ver, ⟨url, SourceKind.git ref, prec⟩⟩ =
          some (gitOut name u s)) ∧
      (∀ s p, ref = GitReference.Rev s → ¬ byteLen s = 40 → prec = some p →
        classify repro root ⟨name, ver, ⟨url, SourceKind.git ref, prec⟩⟩ =
          some (gitOut name u p)) ∧
      (∀ s, ref = GitReference.Rev s → ¬ byteLen s = 40 → prec = none →
        classify repro root ⟨name, ver, ⟨url, SourceKind.git ref, prec⟩⟩ = none) ∧
      (∀ s, ref = GitReference.Branch s →
        classify repro root ⟨name, ver, ⟨url, SourceKind.git ref, prec⟩⟩ =
          some (gitOut name u (if s = "master".data then "${AUTOREV}".data else s))) ∧
      (ref = GitReference.DefaultBranch →
        classify repro root ⟨name, ver, ⟨url, SourceKind.git ref, prec⟩⟩ =
          some (gitOut name u "${AUTOREV}".data))) := by
  have hcl : classify repro root ⟨name, ver, ⟨url, SourceKind.git ref, prec⟩⟩ =
      (selectRev repro ref prec).map (gitOut name u) := by
    cases hsr : selectRev repro ref prec <;> simp [classify, hname, hurl, hsr]
  constructor
  · intro p hrepro hprec
    subst hrepro
    subst hprec
    rw [hcl]
    simp [selectRev]
  · intro hguard
    refine ⟨?_, ?_, ?_, ?_, ?_, ?_⟩
    · intro s href
      subst href
      rcases hguard with hr | hp
      · subst hr
        rw [hcl]
        simp [selectRev]
      · subst hp
        rw [hcl]
        cases repro <;> simp [selectRev]
    · intro s href h40
      subst href
      rcases hguard with hr | hp
      · subst hr
        rw [hcl]
        simp [selectRev, h40]
      · subst hp
        rw [hcl]
        cases repro <;> simp [selectRev, h40]
    · intro s p href h40 hprec
      subst href
      subst hprec
      rcases hguard with hr | hp
      · subst hr
        rw [hcl]
        simp [selectRev, h40]
      · exact absurd hp (by simp)
    · intro s href h40 hprec
      subst href
      subst hprec
      rw [hcl]
      cases repro <;> simp [selectRev, h40]
    · intro s href
      subst href
      rcases hguard with hr | hp
      · subst hr
        rw [hcl]
        simp [selectRev]
      · subst hp
        rw [hcl]
        cases repro <;> simp [selectRev]
    · intro href
      subst href
      rcases hguard with hr | hp
      · subst hr
        rw [hcl]
        simp [selectRev]
      · subst hp
        rw [hcl]
        cases repro <;> simp [selectRev]

/-- C2 witness: a Tag("v1.0") reference on a git package bar with no precise
revision, outside reproducible mode, emits the tag name as the revision
value. -/
theorem git_srcrev_selection_witness :
    classify false "root".data
        ⟨"bar".data, "0.1.0".data,
         ⟨"https://e/r".data, SourceKind.git (GitReference.Tag "v1.0".data), none⟩⟩ =
      some (gitOut "bar".data
        "git://e/r;protocol=https;nobranch=1;name=bar;destsuffix=bar".data "v1.0".data) := by
  have h := git_srcrev_selection false "root".data "bar".data "0.1.0".data "https://e/r".data
    "git://e/r;protocol=https;nobranch=1;name=bar;destsuffix=bar".data
    (GitReference.Tag "v1.0".data) none (by decide) (by decide)
  exact (h.2 (Or.inl rfl)).1 "v1.0".data rfl

/-- C2 counterexample: a Rev reference of 40 non-hex characters (forty 'z's)
with no precise revision available is emitted verbatim as the revision
override — the run does not abort and nothing falls back, refuting the
"40 hex characters" reading of the claim. -/
theorem git_srcrev_selection_counterexample :
    classify false "root".data
        ⟨"bar".data, "0.1.0".data,
         ⟨"https://e/r".data, SourceKind.git (GitReference.Rev (List.replicate 40 'z')),
          none⟩⟩ =
      some (gitOut "bar".data
        "git://e/r;protocol=https;nobranch=1;name=bar;destsuffix=bar".data
        (List.replicate 40 'z')) := by
  decide
